import Mathlib

/-
Verification of the quantum-state basis-transformation and operator-algebra
engine of the Quantum-Mechanics repository.

Shallow embedding conventions:
- numpy arrays of reals/complexes become `List ℝ` / `List ℂ`; `arr[i]` becomes
  `List.getD i 0` (every concrete access in the embedded code paths is in
  bounds, so the default is never read there);
- `np.zeros(k)` becomes `List.replicate k 0`; an indexed assignment `a[i] = v`
  becomes `List.set i v`; python `for` loops over `range` become `List.foldl`
  over `List.range`;
- machine floats are embedded as exact real numbers (the claims under study are
  about the algebra of the operations, not about rounding);
- 2x2 numpy matrices become `Matrix (Fin 2) (Fin 2) ℝ` (or `ℂ`);
- a python constructor that can raise becomes a function into `Except`.
-/

noncomputable section

namespace QHO

/-- `QuantumHarmonicOscillator.apply_creation` (ladder_operators_visual.py,
lines 51-66): `new_coeffs = np.zeros(len(coeffs))`, then
`for n in range(len(coeffs) - 1): new_coeffs[n + 1] = np.sqrt(n + 1) * coeffs[n]`. -/
def apply_creation (coeffs : List ℝ) : List ℝ :=
  (List.range (coeffs.length - 1)).foldl
    (fun new_coeffs n => new_coeffs.set (n + 1) (Real.sqrt (n + 1) * coeffs.getD n 0))
    (List.replicate coeffs.length 0)

/-- `QuantumHarmonicOscillator.apply_annihilation` (ladder_operators_visual.py,
lines 68-83): `new_coeffs = np.zeros(len(coeffs))`, then
`for n in range(1, len(coeffs)): new_coeffs[n - 1] = np.sqrt(n) * coeffs[n]`.
The loop over `n = 1 .. len-1` is reindexed here as `k = n - 1` running over
`List.range (len - 1)`. -/
def apply_annihilation (coeffs : List ℝ) : List ℝ :=
  (List.range (coeffs.length - 1)).foldl
    (fun new_coeffs k => new_coeffs.set k (Real.sqrt (k + 1) * coeffs.getD (k + 1) 0))
    (List.replicate coeffs.length 0)

/-- `np.sqrt(np.sum(np.abs(coeffs)**2))` as computed in `apply_creation_op` /
`apply_annihilation_op` (ladder_operators_visual.py, lines 191 and 199). -/
def norm_of (coeffs : List ℝ) : ℝ :=
  Real.sqrt ((coeffs.map (fun c => c ^ 2)).sum)

/-- The renormalization step shared by the two button callbacks
`apply_creation_op` and `apply_annihilation_op` (ladder_operators_visual.py,
lines 190-193 and 198-201): `if norm > 1e-10: coeffs /= norm`, else the
vector is left as it is. -/
def renormalize (coeffs : List ℝ) : List ℝ :=
  if norm_of coeffs > 1e-10 then coeffs.map (fun c => c / norm_of coeffs) else coeffs

end QHO

/-- Error outcomes of the embedded constructor. `indexError` is the out-of-bounds
access error that python raises on `self.x[1]` when the grid has fewer than two
points. `invalidGridError` is Modelled from the spec: the spec names a dedicated
`InvalidGridError` for a grid with fewer than 2 points; no such error class
exists anywhere in the repository, the constructor is the only code deciding
this claim, and the second constructor is declared here only so that the spec's
claimed error can be compared with the error the code actually produces. -/
inductive PyError where
  | indexError : PyError
  | invalidGridError : PyError
deriving DecidableEq

/-- `np.linspace(a, b, num)`: `num` evenly spaced samples `a + (b-a)*i/(num-1)`
for `i = 0 .. num-1` (exact in real arithmetic; for `num = 1` numpy returns
`[a]`, matched here because the numerator is `0`). -/
def linspace (a b : ℝ) (num : ℕ) : List ℝ :=
  (List.range num).map (fun (i : ℕ) => a + (b - a) * (i : ℝ) / ((num : ℝ) - 1))

/-- The state built by `ParticleInBox.__init__` ("change of basis.py",
lines 17-22): box length `L`, basis cutoff `n_max`, grid `x` and spacing `dx`. -/
structure ParticleInBox where
  L : ℝ
  n_max : ℕ
  x : List ℝ
  dx : ℝ

namespace ParticleInBox

/-- `ParticleInBox.__init__(L, n_max, n_points)` ("change of basis.py",
lines 17-22): `self.x = np.linspace(0, L, n_points)`;
`self.dx = self.x[1] - self.x[0]`. When the grid has fewer than two points the
access `self.x[1]` raises an index error, surfaced to the caller. -/
def init (L : ℝ) (n_max n_points : ℕ) : Except PyError ParticleInBox :=
  let xs := linspace 0 L n_points
  if 1 < xs.length then
    .ok ⟨L, n_max, xs, xs.getD 1 0 - xs.getD 0 0⟩
  else
    .error .indexError

/-- `ParticleInBox.position_wavefunction(n, x)` ("change of basis.py",
lines 24-31): `n_quantum = n + 1`;
`psi = sqrt(2/L) * sin(n_quantum * pi * x / L)`. -/
def position_wavefunction (pib : ParticleInBox) (n : ℕ) (t : ℝ) : ℝ :=
  Real.sqrt (2 / pib.L) * Real.sin (((n : ℝ) + 1) * Real.pi * t / pib.L)

/-- `ParticleInBox.energy_to_position(coefficients)` ("change of basis.py",
lines 33-43): `psi_x = np.zeros_like(self.x, dtype=complex)`, then
`for n in range(len(coefficients)): psi_x += coefficients[n] *
self.position_wavefunction(n, self.x)` — a vectorized accumulation over the
whole grid, embedded as a `zipWith` of the running array with the grid. -/
def energy_to_position (pib : ParticleInBox) (coefficients : List ℂ) : List ℂ :=
  (List.range coefficients.length).foldl
    (fun psi_x n =>
      List.zipWith (fun p t => p + coefficients.getD n 0 * (pib.position_wavefunction n t : ℂ))
        psi_x pib.x)
    (List.replicate pib.x.length 0)

/-- `np.trapz(y, x)` for a complex-valued integrand sampled on a real grid:
the trapezoidal rule `Σ_i (x[i+1]-x[i]) * (y[i]+y[i+1]) / 2`. -/
def trapz (y : List ℂ) (x : List ℝ) : ℂ :=
  ∑ i in Finset.range (x.length - 1),
    ((x.getD (i + 1) 0 - x.getD i 0 : ℝ) : ℂ) * (y.getD i 0 + y.getD (i + 1) 0) / 2

/-- `np.trapz(y, x)` for a real-valued integrand (same rule as `trapz`). -/
def trapzR (y : List ℝ) (x : List ℝ) : ℝ :=
  ∑ i in Finset.range (x.length - 1),
    (x.getD (i + 1) 0 - x.getD i 0) * (y.getD i 0 + y.getD (i + 1) 0) / 2

/-- `ParticleInBox.position_to_energy(psi_x)` ("change of basis.py",
lines 45-55): `coefficients[n] = np.trapz(psi_n * psi_x, self.x)` for
`n in range(self.n_max)`, with `psi_n = self.position_wavefunction(n, self.x)`. -/
def position_to_energy (pib : ParticleInBox) (psi_x : List ℂ) : List ℂ :=
  (List.range pib.n_max).map (fun n =>
    trapz (List.zipWith (fun (a : ℝ) (b : ℂ) => (a : ℂ) * b)
        (pib.x.map (pib.position_wavefunction n)) psi_x)
      pib.x)

/-- Trapezoidal approximation of `∫ ψ_m ψ_n` on the instance's grid — the Gram
matrix the quadrature actually realizes. -/
def gram (pib : ParticleInBox) (m n : ℕ) : ℝ :=
  trapzR (pib.x.map (fun t => pib.position_wavefunction m t * pib.position_wavefunction n t)) pib.x

/-- The trapezoidal quadrature error of the grid on the basis-overlap
integrand `ψ_m ψ_n`: the distance between the trapezoidal sum and the exact
integral `∫_0^L ψ_m(t) ψ_n(t) dt`. -/
def quadErr (pib : ParticleInBox) (m n : ℕ) : ℝ :=
  |pib.gram m n - ∫ t in (0:ℝ)..pib.L, pib.position_wavefunction m t * pib.position_wavefunction n t|

end ParticleInBox

/-- A concrete engine instance (`L = 1`, `n_max = 1`, five grid points), used to
exhibit the behaviour of the forward transform on a coefficient vector that is
longer than `n_max`. -/
def pibTrunc : ParticleInBox := ⟨1, 1, linspace 0 1 5, 1/4⟩

/-- A concrete engine instance (`L = 1`, `n_max = 2`, five grid points), used to
instantiate the universally quantified transform theorems. -/
def pibRT : ParticleInBox := ⟨1, 2, linspace 0 1 5, 1/4⟩

namespace TwoLevel

/-- `E0 = 1.0` ("two-level quantum system.py", line 6). -/
def E0 : ℝ := 1

/-- `E1 = 0.0` ("two-level quantum system.py", line 7). -/
def E1 : ℝ := 0

/-- `alpha = -1.0` ("two-level quantum system.py", line 28), from the
orthogonality condition `1 + alpha = 0`. -/
def alpha : ℝ := -1

/-- `c0 = np.sqrt(1/2)` ("two-level quantum system.py", lines 33-34). -/
def c0 : ℝ := Real.sqrt (1 / 2)

/-- `c1 = np.sqrt(1 / (1 + abs(alpha)**2))` ("two-level quantum system.py",
lines 40-41). -/
def c1 : ℝ := Real.sqrt (1 / (1 + |alpha| ^ 2))

/-- `ket_x0 = c0 * np.array([[1], [1]])` ("two-level quantum system.py",
line 70). -/
def ket_x0 : Fin 2 → ℝ := ![c0 * 1, c0 * 1]

/-- `ket_x1 = c1 * np.array([[1], [alpha]])` ("two-level quantum system.py",
line 71). -/
def ket_x1 : Fin 2 → ℝ := ![c1 * 1, c1 * alpha]

/-- `X_energy = x0 * (ket_x0 @ ket_x0.conj().T) + x1 * (ket_x1 @ ket_x1.conj().T)`
("two-level quantum system.py", line 75), with the eigenvalues `x0`, `x1` kept
as parameters (the script instantiates them at `x0 = 1.0`, `x1 = -1.0`,
line 65-66). The kets are real, so the conjugate-transpose outer product is
`Matrix.vecMulVec`. -/
def X_energy (x0 x1 : ℝ) : Matrix (Fin 2) (Fin 2) ℝ :=
  x0 • Matrix.vecMulVec ket_x0 ket_x0 + x1 • Matrix.vecMulVec ket_x1 ket_x1

/-- `H_energy = np.array([[E0, 0], [0, E1]])` ("two-level quantum system.py",
lines 58-59). -/
def H_energy : Matrix (Fin 2) (Fin 2) ℝ :=
  Matrix.of ![![E0, 0], ![0, E1]]

/-- `hbar = 1.0` ("two-level quantum system.py", line 102). -/
def hbar : ℝ := 1

/-- `U_t = expm(-1j * H_energy * t / hbar)` ("two-level quantum system.py",
lines 111 and 149). `H_energy` is diagonal, so the matrix exponential is the
diagonal matrix of the entrywise complex exponentials (the reduction the spec
itself records for a diagonal Hamiltonian); the lemma `U_eq_matrix_exp` below
proves this embedding equal to the abstract matrix exponential. -/
def U (t : ℝ) : Matrix (Fin 2) (Fin 2) ℂ :=
  Matrix.diagonal ![Complex.exp (-Complex.I * (E0 : ℂ) * (t : ℂ) / (hbar : ℂ)),
                    Complex.exp (-Complex.I * (E1 : ℂ) * (t : ℂ) / (hbar : ℂ))]

/-- `psi_0 = ket_x0` ("two-level quantum system.py", line 99), as a complex
2-vector. -/
def psi_0 : Fin 2 → ℂ := fun i => (ket_x0 i : ℂ)

/-- `psi_t = U_t @ psi_0` ("two-level quantum system.py", lines 114 and 152). -/
def psi_t (t : ℝ) : Fin 2 → ℂ := (U t).mulVec psi_0

/-- The position operator of the script at its concrete eigenvalues
`x0 = 1.0`, `x1 = -1.0`, promoted to complex entries for the expectation-value
arithmetic of lines 117 and 155. -/
def Xc : Matrix (Fin 2) (Fin 2) ℂ := (X_energy 1 (-1)).map (fun r => (r : ℂ))

/-- `X_squared = X_energy @ X_energy` ("two-level quantum system.py", line 142). -/
def X_squared : Matrix (Fin 2) (Fin 2) ℂ := Xc * Xc

/-- `X_expectation[i] = np.real(psi_t.conj().T @ X_energy @ psi_t)`
("two-level quantum system.py", line 117). -/
def X_expectation (t : ℝ) : ℝ :=
  (Matrix.dotProduct (star (psi_t t)) (Xc.mulVec (psi_t t))).re

/-- `X_squared_expectation[i] = np.real(psi_t.conj().T @ X_squared @ psi_t)`
("two-level quantum system.py", line 155). -/
def X_squared_expectation (t : ℝ) : ℝ :=
  (Matrix.dotProduct (star (psi_t t)) (X_squared.mulVec (psi_t t))).re

/-- The variance `⟨X²⟩ - ⟨X⟩²` whose square root the script takes at line 158:
`sigma_x[i] = np.sqrt(X_squared_expectation[i] - X_expectation[i]**2)`. -/
def variance (t : ℝ) : ℝ := X_squared_expectation t - X_expectation t ^ 2

end TwoLevel

/-! List access helpers used throughout the development. -/

theorem getD_map_lt {α β : Type _} (f : α → β) (l : List α) (i : ℕ) (h : i < l.length)
    (da : α) (db : β) : (l.map f).getD i db = f (l.getD i da) := by
  rw [List.getD_eq_getElem l da h, List.getD_eq_getElem _ _ (by simpa using h)]
  simp

theorem getD_zipWith_lt {α β γ : Type _} (f : α → β → γ) (l1 : List α) (l2 : List β) (i : ℕ)
    (h1 : i < l1.length) (h2 : i < l2.length) (d1 : α) (d2 : β) (d3 : γ) :
    (List.zipWith f l1 l2).getD i d3 = f (l1.getD i d1) (l2.getD i d2) := by
  rw [List.getD_eq_getElem _ _ (by simp [List.length_zipWith]; omega),
      List.getD_eq_getElem _ _ h1, List.getD_eq_getElem _ _ h2]
  simp

theorem getD_set_self' {α : Type _} (l : List α) (i : ℕ) (h : i < l.length) (a d : α) :
    (l.set i a).getD i d = a := by
  simp [List.getD_eq_getElem?_getD, List.getElem?_set_self, h]

theorem getD_set_ne' {α : Type _} (l : List α) (i j : ℕ) (hij : i ≠ j) (a d : α) :
    (l.set i a).getD j d = l.getD j d := by
  simp [List.getD_eq_getElem?_getD, List.getElem?_set_ne hij]

theorem getD_replicate_self {α : Type _} (k i : ℕ) (z : α) :
    (List.replicate k z).getD i z = z := by
  rcases lt_or_le i k with h | h
  · rw [List.getD_eq_getElem _ _ (by simpa using h)]
    simp
  · rw [List.getD_eq_default _ _ (by simpa using h)]

theorem list_ext_getD {α : Type _} (l1 l2 : List α) (d : α) (hlen : l1.length = l2.length)
    (h : ∀ i : ℕ, i < l1.length → l1.getD i d = l2.getD i d) : l1 = l2 := by
  apply List.ext_getElem hlen
  intro i h1 h2
  rw [← List.getD_eq_getElem l1 d h1, ← List.getD_eq_getElem l2 d h2]
  exact h i h1

/-! The two ladder-operator loops write into a zero-initialized array at indices
`n + 1` resp. `n`, for `n` running over `List.range m`. The next four lemmas
characterize the result of such a loop. -/

theorem foldl_set1_length {α : Type _} (g : ℕ → α) (init : List α) (m : ℕ) :
    ((List.range m).foldl (fun acc n => acc.set (n + 1) (g n)) init).length = init.length := by
  induction m with
  | zero => simp
  | succ m ih => rw [List.range_succ, List.foldl_append]; simp [ih]

theorem foldl_set0_length {α : Type _} (g : ℕ → α) (init : List α) (m : ℕ) :
    ((List.range m).foldl (fun acc n => acc.set n (g n)) init).length = init.length := by
  induction m with
  | zero => simp
  | succ m ih => rw [List.range_succ, List.foldl_append]; simp [ih]

theorem foldl_set1_getD {α : Type _} (g : ℕ → α) (init : List α) (m k : ℕ) (d : α) :
    ((List.range m).foldl (fun acc n => acc.set (n + 1) (g n)) init).getD k d
      = if 1 ≤ k ∧ k < m + 1 ∧ k < init.length then g (k - 1) else init.getD k d := by
  induction m with
  | zero =>
    rw [if_neg (by omega)]
    simp
  | succ m ih =>
    rw [List.range_succ, List.foldl_append]
    simp only [List.foldl_cons, List.foldl_nil]
    by_cases hk : k = m + 1
    · subst hk
      rcases lt_or_le (m + 1) init.length with hlen | hlen
      · rw [getD_set_self' _ _ (by rw [foldl_set1_length]; exact hlen)]
        rw [if_pos ⟨by omega, by omega, hlen⟩]
        simp
      · rw [List.set_eq_of_length_le (by rw [foldl_set1_length]; exact hlen), ih,
          if_neg (by omega), if_neg (by omega)]
    · rw [getD_set_ne' _ _ _ (by omega), ih]
      by_cases h1 : 1 ≤ k ∧ k < m + 1 ∧ k < init.length
      · rw [if_pos h1, if_pos ⟨h1.1, by omega, h1.2.2⟩]
      · rw [if_neg h1, if_neg (by omega)]

theorem foldl_set0_getD {α : Type _} (g : ℕ → α) (init : List α) (m k : ℕ) (d : α) :
    ((List.range m).foldl (fun acc n => acc.set n (g n)) init).getD k d
      = if k < m ∧ k < init.length then g k else init.getD k d := by
  induction m with
  | zero =>
    rw [if_neg (by omega)]
    simp
  | succ m ih =>
    rw [List.range_succ, List.foldl_append]
    simp only [List.foldl_cons, List.foldl_nil]
    by_cases hk : k = m
    · subst hk
      rcases lt_or_le k init.length with hlen | hlen
      · rw [getD_set_self' _ _ (by rw [foldl_set0_length]; exact hlen)]
        rw [if_pos ⟨by omega, hlen⟩]
      · rw [List.set_eq_of_length_le (by rw [foldl_set0_length]; exact hlen), ih,
          if_neg (by omega), if_neg (by omega)]
    · rw [getD_set_ne' _ _ _ (by omega), ih]
      by_cases h1 : k < m ∧ k < init.length
      · rw [if_pos h1, if_pos ⟨by omega, h1.2⟩]
      · rw [if_neg h1, if_neg (by omega)]

namespace QHO

theorem apply_creation_length (c : List ℝ) : (apply_creation c).length = c.length := by
  rw [apply_creation, foldl_set1_length, List.length_replicate]

theorem apply_annihilation_length (c : List ℝ) : (apply_annihilation c).length = c.length := by
  rw [apply_annihilation, foldl_set0_length, List.length_replicate]

theorem apply_creation_getD (c : List ℝ) (k : ℕ) :
    (apply_creation c).getD k 0
      = if 1 ≤ k ∧ k < c.length then Real.sqrt k * c.getD (k - 1) 0 else 0 := by
  rw [apply_creation, foldl_set1_getD]
  simp only [List.length_replicate]
  by_cases h : 1 ≤ k ∧ k < c.length
  · rw [if_pos ⟨h.1, by omega, h.2⟩, if_pos h]
    have harg : ((k - 1 : ℕ) : ℝ) + 1 = (k : ℝ) := by
      rw [Nat.cast_sub h.1]
      ring
    rw [harg]
  · rw [if_neg (by omega), if_neg h, getD_replicate_self]

theorem apply_annihilation_getD (c : List ℝ) (k : ℕ) :
    (apply_annihilation c).getD k 0
      = if k < c.length - 1 then Real.sqrt (k + 1) * c.getD (k + 1) 0 else 0 := by
  rw [apply_annihilation, foldl_set0_getD]
  simp only [List.length_replicate]
  by_cases h : k < c.length - 1
  · rw [if_pos ⟨h, by omega⟩, if_pos h]
  · rw [if_neg (by omega), if_neg h, getD_replicate_self]

end QHO

/-- Claim C3: for every Fock coefficient vector, `apply_creation` returns a new
vector of the same length with `new[n+1] = sqrt(n+1) * coeffs[n]` for every
`n = 0 .. len-2`, and the population that would move to index `len` (the one
carried by the top input coefficient `coeffs[len-1]`) is discarded rather than
raising an error: the result does not depend on the top input coefficient at
all, and the operation is total. -/
theorem creation_action (c : List ℝ) :
    (QHO.apply_creation c).length = c.length
    ∧ (∀ n : ℕ, n + 1 < c.length →
        (QHO.apply_creation c).getD (n + 1) 0 = Real.sqrt (n + 1) * c.getD n 0)
    ∧ (∀ v : ℝ, QHO.apply_creation (c.set (c.length - 1) v) = QHO.apply_creation c) := by
  refine ⟨QHO.apply_creation_length c, fun n hn => ?_, fun v => ?_⟩
  · rw [QHO.apply_creation_getD, if_pos ⟨by omega, hn⟩, Nat.add_sub_cancel]
    push_cast
    ring_nf
  · apply list_ext_getD _ _ 0
    · rw [QHO.apply_creation_length, QHO.apply_creation_length, List.length_set]
    · intro i _
      rw [QHO.apply_creation_getD, QHO.apply_creation_getD, List.length_set]
      by_cases hi : 1 ≤ i ∧ i < c.length
      · rw [if_pos hi, if_pos hi, getD_set_ne' _ _ _ (by omega)]
      · rw [if_neg hi, if_neg hi]

/-- Claim C3 witness at the concrete input `[3, 5]`. -/
theorem creation_action_witness :
    ((0:ℕ) + 1 < ([3, 5] : List ℝ).length)
    ∧ (QHO.apply_creation [3, 5]).getD (0 + 1) 0
      = Real.sqrt (((0:ℕ) : ℝ) + 1) * ([3, 5] : List ℝ).getD 0 0 :=
  ⟨by simp, (creation_action [3, 5]).2.1 0 (by simp)⟩

/-- Claim C4 counterexample: the claim asserts `new[0] = 0` always, but on the
input `[0, 1]` the code computes `new[0] = sqrt(1) * coeffs[1] = 1 ≠ 0` (the
code zeroes the top slot, not slot 0). -/
theorem annihilation_entry0_counterexample :
    (QHO.apply_annihilation [0, 1]).getD 0 0 = 1 ∧ (1 : ℝ) ≠ 0 := by
  constructor
  · rw [QHO.apply_annihilation_getD]
    norm_num
  · norm_num

/-- Claim C4 (amended): for every Fock coefficient vector, `apply_annihilation`
returns a new vector of the same length with `new[n-1] = sqrt(n) * coeffs[n]`
for every `n = 1 .. len-1`; the top entry `new[len-1]` (not `new[0]`) is zero
always, and applying the operator to the vacuum state (entry 0 arbitrary, all
other entries zero) yields the zero vector as a valid non-error outcome. -/
theorem annihilation_action (c : List ℝ) :
    (QHO.apply_annihilation c).length = c.length
    ∧ (∀ n : ℕ, 1 ≤ n → n < c.length →
        (QHO.apply_annihilation c).getD (n - 1) 0 = Real.sqrt n * c.getD n 0)
    ∧ (1 ≤ c.length → (QHO.apply_annihilation c).getD (c.length - 1) 0 = 0)
    ∧ ((∀ i : ℕ, 1 ≤ i → i < c.length → c.getD i 0 = 0) →
        QHO.apply_annihilation c = List.replicate c.length 0) := by
  refine ⟨QHO.apply_annihilation_length c, fun n h1 h2 => ?_, fun _ => ?_, fun hvac => ?_⟩
  · rw [QHO.apply_annihilation_getD, if_pos (by omega)]
    have hn1 : (n - 1) + 1 = n := by omega
    have harg : ((n - 1 : ℕ) : ℝ) + 1 = (n : ℝ) := by
      rw [Nat.cast_sub h1]
      ring
    rw [hn1, harg]
  · rw [QHO.apply_annihilation_getD, if_neg (by omega)]
  · apply List.ext_getElem
    · rw [QHO.apply_annihilation_length, List.length_replicate]
    · intro i h1 h2
      rw [← List.getD_eq_getElem _ 0, ← List.getD_eq_getElem _ 0,
        QHO.apply_annihilation_getD, getD_replicate_self]
      by_cases hi : i < c.length - 1
      · rw [if_pos hi, hvac (i + 1) (by omega) (by omega), mul_zero]
      · rw [if_neg hi]

/-- Claim C4 witness at the concrete vacuum-like input `[5, 0]`. -/
theorem annihilation_action_witness :
    ((1:ℕ) ≤ 1 ∧ (1:ℕ) < ([5, 0] : List ℝ).length)
    ∧ (QHO.apply_annihilation [5, 0]).getD (1 - 1) 0
      = Real.sqrt ((1:ℕ) : ℝ) * ([5, 0] : List ℝ).getD 1 0
    ∧ QHO.apply_annihilation [5, 0] = List.replicate ([5, 0] : List ℝ).length 0 := by
  refine ⟨⟨le_refl 1, by simp⟩, (annihilation_action [5, 0]).2.1 1 (le_refl 1) (by simp),
    (annihilation_action [5, 0]).2.2.2 ?_⟩
  intro i h1 h2
  have hi : i = 1 := by
    simp only [List.length_cons, List.length_nil] at h2
    omega
  subst hi
  simp [List.getD]

/-- Claim C10: for every input Fock coefficient vector of length at least 1,
`apply_creation` leaves entry 0 equal to zero and `apply_annihilation` leaves
the last entry (index `len - 1`) equal to zero — each operator clears the slot
no population can move into. -/
theorem boundary_slots (c : List ℝ) (_h : 1 ≤ c.length) :
    (QHO.apply_creation c).getD 0 0 = 0
    ∧ (QHO.apply_annihilation c).getD (c.length - 1) 0 = 0 := by
  constructor
  · rw [QHO.apply_creation_getD, if_neg (by omega)]
  · rw [QHO.apply_annihilation_getD, if_neg (by omega)]

/-- Claim C10 witness at the concrete input `[2, 3]`. -/
theorem boundary_slots_witness :
    (1 ≤ ([2, 3] : List ℝ).length)
    ∧ (QHO.apply_creation [2, 3]).getD 0 0 = 0
    ∧ (QHO.apply_annihilation [2, 3]).getD (([2, 3] : List ℝ).length - 1) 0 = 0 :=
  ⟨by simp, (boundary_slots [2, 3] (by simp)).1, (boundary_slots [2, 3] (by simp)).2⟩

/-- Claim C5: renormalization is guarded. If `norm = sqrt(Σ c_i²) > 1e-10` the
vector is divided entrywise by `norm` and the result has unit norm; otherwise
the vector is returned unchanged, so renormalizing a vector of zeros (such as
the result of annihilating the vacuum) is the identity and divides by nothing. -/
theorem renormalize_guarded (c : List ℝ) :
    (QHO.norm_of c > 1e-10 →
      QHO.renormalize c = c.map (fun v => v / QHO.norm_of c)
      ∧ QHO.norm_of (QHO.renormalize c) = 1)
    ∧ (¬ QHO.norm_of c > 1e-10 → QHO.renormalize c = c)
    ∧ ((∀ v ∈ c, v = 0) → QHO.renormalize c = c) := by
  have hS : 0 ≤ (c.map (fun v => v ^ 2)).sum := by
    apply List.sum_nonneg
    intro x hx
    obtain ⟨a, _, rfl⟩ := List.mem_map.mp hx
    exact sq_nonneg a
  refine ⟨fun h => ⟨?_, ?_⟩, fun h => ?_, fun hz => ?_⟩
  · rw [QHO.renormalize, if_pos h]
  · have hpos : 0 < QHO.norm_of c := lt_trans (by norm_num) h
    rw [QHO.renormalize, if_pos h]
    have hmm : (c.map (fun v => v / QHO.norm_of c)).map (fun v => v ^ 2)
        = c.map (fun v => v ^ 2 * ((QHO.norm_of c ^ 2)⁻¹)) := by
      rw [List.map_map]
      apply List.map_congr_left
      intro a _
      rw [Function.comp_apply, div_pow, div_eq_mul_inv]
    have hsum : ((c.map (fun v => v / QHO.norm_of c)).map (fun v => v ^ 2)).sum
        = (c.map (fun v => v ^ 2)).sum * (QHO.norm_of c ^ 2)⁻¹ := by
      rw [hmm, ← List.sum_map_mul_right]
    rw [QHO.norm_of, hsum, Real.sqrt_mul hS, Real.sqrt_inv, Real.sqrt_sq hpos.le]
    have hN : Real.sqrt ((c.map (fun v => v ^ 2)).sum) = QHO.norm_of c := rfl
    rw [hN, mul_inv_cancel₀ hpos.ne']
  · rw [QHO.renormalize, if_neg h]
  · have h0 : QHO.norm_of c = 0 := by
      rw [QHO.norm_of]
      have : (c.map (fun v => v ^ 2)).sum = 0 := by
        apply List.sum_eq_zero
        intro x hx
        obtain ⟨a, ha, rfl⟩ := List.mem_map.mp hx
        rw [hz a ha]
        ring
      rw [this, Real.sqrt_zero]
    rw [QHO.renormalize, if_neg (by rw [h0]; norm_num)]

/-- Claim C5 witness at the concrete input `[3, 4]` (norm 5). -/
theorem renormalize_guarded_witness :
    QHO.norm_of [3, 4] > 1e-10 ∧ QHO.norm_of (QHO.renormalize [3, 4]) = 1 := by
  have h5 : QHO.norm_of [3, 4] = 5 := by
    have hsum : (([3, 4] : List ℝ).map (fun v => v ^ 2)).sum = 25 := by
      norm_num
    rw [QHO.norm_of, hsum, show (25:ℝ) = 5 ^ 2 by norm_num,
      Real.sqrt_sq (by norm_num : (0:ℝ) ≤ 5)]
  have h : QHO.norm_of [3, 4] > 1e-10 := by
    rw [h5]
    norm_num
  exact ⟨h, ((renormalize_guarded [3, 4]).1 h).2⟩

/-! Grid and forward-transform helper lemmas. -/

theorem linspace_length (a b : ℝ) (num : ℕ) : (linspace a b num).length = num := by
  rw [linspace, List.length_map, List.length_range]

theorem getD_take_lt {α : Type _} (l : List α) (m n : ℕ) (hnm : n < m) (d : α) :
    (l.take m).getD n d = l.getD n d := by
  rcases lt_or_le n l.length with hl | hl
  · rw [List.getD_eq_getElem _ _ (by simp [List.length_take]; omega),
      List.getD_eq_getElem _ _ hl]
    rw [List.getElem_take]
  · rw [List.getD_eq_default _ _ (by simp [List.length_take]; omega),
      List.getD_eq_default _ _ (by simpa using hl)]

theorem foldl_zip_length (x : List ℝ) (g : ℕ → ℝ → ℂ) (m : ℕ) (init : List ℂ)
    (hinit : init.length = x.length) :
    ((List.range m).foldl (fun psi n => List.zipWith (fun p t => p + g n t) psi x) init).length
      = x.length := by
  induction m with
  | zero => simpa using hinit
  | succ m ih =>
    rw [List.range_succ, List.foldl_append]
    simp only [List.foldl_cons, List.foldl_nil]
    rw [List.length_zipWith, ih, min_self]

theorem foldl_zip_getD (x : List ℝ) (g : ℕ → ℝ → ℂ) (m : ℕ) (init : List ℂ)
    (hinit : init.length = x.length) (i : ℕ) (hi : i < x.length) :
    ((List.range m).foldl (fun psi n => List.zipWith (fun p t => p + g n t) psi x) init).getD i 0
      = init.getD i 0 + ∑ n in Finset.range m, g n (x.getD i 0) := by
  induction m with
  | zero => simp
  | succ m ih =>
    rw [List.range_succ, List.foldl_append]
    simp only [List.foldl_cons, List.foldl_nil]
    rw [getD_zipWith_lt _ _ _ i (by rw [foldl_zip_length x g m init hinit]; exact hi) hi 0 0 0]
    rw [ih, Finset.sum_range_succ]
    ring

namespace ParticleInBox

theorem energy_to_position_length (pib : ParticleInBox) (c : List ℂ) :
    (pib.energy_to_position c).length = pib.x.length := by
  rw [energy_to_position]
  exact foldl_zip_length pib.x
    (fun n t => c.getD n 0 * (pib.position_wavefunction n t : ℂ)) c.length _ (by simp)

theorem energy_to_position_getD (pib : ParticleInBox) (c : List ℂ) (i : ℕ)
    (hi : i < pib.x.length) :
    (pib.energy_to_position c).getD i 0
      = ∑ n in Finset.range c.length,
          c.getD n 0 * (pib.position_wavefunction n (pib.x.getD i 0) : ℂ) := by
  have h := foldl_zip_getD pib.x
    (fun n t => c.getD n 0 * (pib.position_wavefunction n t : ℂ)) c.length
    (List.replicate pib.x.length 0) (by simp) i hi
  rw [energy_to_position]
  refine h.trans ?_
  rw [getD_replicate_self, zero_add]

end ParticleInBox

/-- Claim C7 counterexample: constructing the engine with a one-point grid fails,
but with the index error of the out-of-bounds access `self.x[1]`, not with the
`InvalidGridError` named by the spec (no such error class exists in the code). -/
theorem init_error_kind_counterexample :
    ParticleInBox.init 1 10 1 = Except.error PyError.indexError
    ∧ PyError.indexError ≠ PyError.invalidGridError := by
  constructor
  · simp [ParticleInBox.init, linspace_length]
  · decide

/-- Claim C7 (amended): constructing the engine with a grid of fewer than 2
points is a configuration error that fails immediately to the caller — but with
the index error raised by the access `self.x[1]`, not with a dedicated
`InvalidGridError` (which the repository never defines). The constructor is a
pure function, so the failure is deterministic and never retried. -/
theorem init_fails_fast (L : ℝ) (n_max n_points : ℕ) (h : n_points < 2) :
    ParticleInBox.init L n_max n_points = Except.error PyError.indexError := by
  simp only [ParticleInBox.init, linspace_length]
  rw [if_neg (by omega)]

/-- Claim C7 witness at the concrete call `init 1 10 0` (empty grid). -/
theorem init_fails_fast_witness :
    ((0:ℕ) < 2) ∧ ParticleInBox.init 1 10 0 = Except.error PyError.indexError :=
  ⟨by norm_num, init_fails_fast 1 10 0 (by norm_num)⟩

/-- Claim C2: for every coefficient vector `c` and every grid point,
`energy_to_position` returns the pointwise sum `Σ_n c[n] · ψ_n(x)` with
`ψ_n(x) = sqrt(2/L) · sin((n+1)·π·x/L)`, and the operation is linear in the
coefficient vector (it is a plain function of its arguments, hence
deterministic). -/
theorem e2p_pointwise_linear (pib : ParticleInBox) (c d : List ℂ) (a b : ℂ) (i : ℕ)
    (h : i < pib.x.length) :
    (pib.energy_to_position c).getD i 0
      = ∑ n in Finset.range c.length,
          c.getD n 0 * (pib.position_wavefunction n (pib.x.getD i 0) : ℂ)
    ∧ (c.length = d.length →
        (pib.energy_to_position (List.zipWith (fun u v => a * u + b * v) c d)).getD i 0
          = a * (pib.energy_to_position c).getD i 0
            + b * (pib.energy_to_position d).getD i 0) := by
  refine ⟨pib.energy_to_position_getD c i h, fun hlen => ?_⟩
  rw [pib.energy_to_position_getD _ i h, pib.energy_to_position_getD c i h,
    pib.energy_to_position_getD d i h]
  have hzl : (List.zipWith (fun u v => a * u + b * v) c d).length = c.length := by
    rw [List.length_zipWith, hlen, min_self]
  rw [hzl, Finset.mul_sum, Finset.mul_sum, ← hlen, ← Finset.sum_add_distrib]
  apply Finset.sum_congr rfl
  intro n hn
  rw [Finset.mem_range] at hn
  rw [getD_zipWith_lt _ _ _ n hn (by rw [← hlen]; exact hn) 0 0 0]
  ring

/-- Claim C2 witness at the concrete instance `pibRT`, `c = [1, 0]`, `d = [0, 1]`,
grid point 0. -/
theorem e2p_pointwise_linear_witness :
    (0 < pibRT.x.length)
    ∧ (pibRT.energy_to_position [1, 0]).getD 0 0
      = ∑ n in Finset.range ([1, 0] : List ℂ).length,
          ([1, 0] : List ℂ).getD n 0 * (pibRT.position_wavefunction n (pibRT.x.getD 0 0) : ℂ) :=
  ⟨by simp [pibRT, linspace_length],
    (e2p_pointwise_linear pibRT [1, 0] [0, 1] 1 1 0 (by simp [pibRT, linspace_length])).1⟩

/-- Claim C6 counterexample: with `n_max = 1` and the coefficient vector `[0, 1]`
(longer than `n_max`), the forward transform does NOT drop the coefficient at
index `n_max`: the result differs from the transform of the truncated vector,
because the code loops over `range(len(coefficients))`, never consulting
`n_max`. At grid point `x = 1/4` the full transform gives `sqrt 2 ≠ 0`. -/
theorem e2p_truncation_counterexample :
    ([0, 1] : List ℂ).length > pibTrunc.n_max
    ∧ pibTrunc.energy_to_position [0, 1]
      ≠ pibTrunc.energy_to_position (([0, 1] : List ℂ).take pibTrunc.n_max) := by
  have h1 : 1 < pibTrunc.x.length := by
    simp [pibTrunc, linspace_length]
  have hx1 : pibTrunc.x.getD 1 0 = 1 / 4 := by
    show (linspace 0 1 5).getD 1 0 = 1 / 4
    rw [linspace, getD_map_lt _ _ 1 (by simp) 0 0,
      List.getD_eq_getElem _ _ (by simp)]
    simp
    norm_num
  have hpsi : pibTrunc.position_wavefunction 1 (1 / 4) = Real.sqrt 2 := by
    rw [ParticleInBox.position_wavefunction]
    have harg : (((1:ℕ) : ℝ) + 1) * Real.pi * (1 / 4) / pibTrunc.L = Real.pi / 2 := by
      show (((1:ℕ) : ℝ) + 1) * Real.pi * (1 / 4) / 1 = Real.pi / 2
      push_cast
      ring
    rw [harg, Real.sin_pi_div_two, mul_one]
    norm_num [pibTrunc]
  have htake : ([0, 1] : List ℂ).take pibTrunc.n_max = [0] := by
    show ([0, 1] : List ℂ).take 1 = [0]
    rfl
  constructor
  · show 2 > pibTrunc.n_max
    norm_num [pibTrunc]
  · intro hEq
    have hL : (pibTrunc.energy_to_position [0, 1]).getD 1 0 = (Real.sqrt 2 : ℂ) := by
      rw [pibTrunc.energy_to_position_getD _ 1 h1]
      rw [show ([0, 1] : List ℂ).length = 2 by rfl, Finset.sum_range_succ, Finset.sum_range_one,
        hx1, hpsi]
      norm_num
    have hR : (pibTrunc.energy_to_position (([0, 1] : List ℂ).take pibTrunc.n_max)).getD 1 0
        = 0 := by
      rw [htake, pibTrunc.energy_to_position_getD _ 1 h1]
      rw [show ([0] : List ℂ).length = 1 by rfl, Finset.sum_range_one]
      norm_num
    have h2 := congrArg (fun l => l.getD 1 0) hEq
    simp only at h2
    rw [hL, hR, Complex.ofReal_eq_zero] at h2
    exact absurd h2 (Real.sqrt_pos.mpr (by norm_num)).ne'

/-- Claim C6 (amended): the forward transform performs no truncation at `n_max`:
for every coefficient vector it equals the transform of the first `n_max`
coefficients PLUS the contribution of every coefficient at index `n_max` and
beyond. The excess coefficients contribute (no error is raised either); only
`position_to_energy` is limited to `n_max` outputs. -/
theorem e2p_uses_all_coefficients (pib : ParticleInBox) (c : List ℂ) (i : ℕ)
    (h : i < pib.x.length) :
    (pib.energy_to_position c).getD i 0
      = (pib.energy_to_position (c.take pib.n_max)).getD i 0
        + ∑ n in Finset.Ico pib.n_max c.length,
            c.getD n 0 * (pib.position_wavefunction n (pib.x.getD i 0) : ℂ) := by
  rw [pib.energy_to_position_getD c i h, pib.energy_to_position_getD _ i h, List.length_take]
  rcases le_or_lt c.length pib.n_max with hle | hlt
  · rw [min_eq_right hle, Finset.Ico_eq_empty (by omega), Finset.sum_empty, add_zero]
    apply Finset.sum_congr rfl
    intro n hn
    rw [Finset.mem_range] at hn
    rw [getD_take_lt _ _ _ (by omega)]
  · rw [min_eq_left hlt.le]
    have hsplit : ∑ n in Finset.range c.length,
          c.getD n 0 * (pib.position_wavefunction n (pib.x.getD i 0) : ℂ)
        = (∑ n in Finset.range pib.n_max,
            c.getD n 0 * (pib.position_wavefunction n (pib.x.getD i 0) : ℂ))
          + ∑ n in Finset.Ico pib.n_max c.length,
            c.getD n 0 * (pib.position_wavefunction n (pib.x.getD i 0) : ℂ) := by
      rw [Finset.range_eq_Ico,
        ← Finset.sum_Ico_consecutive
          (fun n => c.getD n 0 * (pib.position_wavefunction n (pib.x.getD i 0) : ℂ))
          (Nat.zero_le pib.n_max) hlt.le,
        ← Finset.range_eq_Ico]
    rw [hsplit]
    congr 1
    apply Finset.sum_congr rfl
    intro n hn
    rw [Finset.mem_range] at hn
    rw [getD_take_lt _ _ _ hn]

/-- Claim C6 witness (for the amended claim) at the concrete instance `pibTrunc`
with `c = [0, 1]` and grid point 1. -/
theorem e2p_uses_all_coefficients_witness :
    (1 < pibTrunc.x.length)
    ∧ (pibTrunc.energy_to_position [0, 1]).getD 1 0
      = (pibTrunc.energy_to_position (([0, 1] : List ℂ).take pibTrunc.n_max)).getD 1 0
        + ∑ n in Finset.Ico pibTrunc.n_max ([0, 1] : List ℂ).length,
            ([0, 1] : List ℂ).getD n 0 * (pibTrunc.position_wavefunction n (pibTrunc.x.getD 1 0) : ℂ) :=
  ⟨by simp [pibTrunc, linspace_length],
    e2p_uses_all_coefficients pibTrunc [0, 1] 1 (by simp [pibTrunc, linspace_length])⟩

/-! Two-level system: position operator and variance of the propagated state. -/

namespace TwoLevel

theorem c0_mul_self : c0 * c0 = 1 / 2 :=
  Real.mul_self_sqrt (by norm_num)

theorem c0_sq : c0 ^ 2 = 1 / 2 :=
  Real.sq_sqrt (by norm_num)

theorem c1_mul_self : c1 * c1 = 1 / 2 := by
  rw [c1, show (1:ℝ) / (1 + |alpha| ^ 2) = 1 / 2 by norm_num [alpha]]
  exact Real.mul_self_sqrt (by norm_num)

theorem X_energy_apply (x0 x1 : ℝ) :
    X_energy x0 x1
      = Matrix.of ![![(x0 + x1) / 2, (x0 - x1) / 2], ![(x0 - x1) / 2, (x0 + x1) / 2]] := by
  ext i j
  fin_cases i <;> fin_cases j
  · simp [X_energy, Matrix.vecMulVec, ket_x0, ket_x1, alpha]
    linear_combination x0 * c0_mul_self + x1 * c1_mul_self
  · simp [X_energy, Matrix.vecMulVec, ket_x0, ket_x1, alpha]
    linear_combination x0 * c0_mul_self - x1 * c1_mul_self
  · simp [X_energy, Matrix.vecMulVec, ket_x0, ket_x1, alpha]
    linear_combination x0 * c0_mul_self - x1 * c1_mul_self
  · simp [X_energy, Matrix.vecMulVec, ket_x0, ket_x1, alpha]
    linear_combination x0 * c0_mul_self + x1 * c1_mul_self

end TwoLevel

/-- Claim C8: for arbitrary real `x0 ≠ x1`, the constructed operator
`X = x0·|x0⟩⟨x0| + x1·|x1⟩⟨x1|` is symmetric — so `X = X†` holds exactly, hence
within any floating tolerance, and the Hermiticity post-condition (which would
have to fail when the check does not hold) provably never fires — the two kets
are eigenvectors with eigenvalues `x0` and `x1`, and the eigenvalue set of `X`
(the roots of its characteristic polynomial) is exactly `{x0, x1}`, which is
eigenvalue recovery within any tolerance, 1e-9 included. -/
theorem X_hermitian_eigen (x0 x1 : ℝ) (_hne : x0 ≠ x1) :
    (TwoLevel.X_energy x0 x1).transpose = TwoLevel.X_energy x0 x1
    ∧ (TwoLevel.X_energy x0 x1).mulVec TwoLevel.ket_x0 = x0 • TwoLevel.ket_x0
    ∧ (TwoLevel.X_energy x0 x1).mulVec TwoLevel.ket_x1 = x1 • TwoLevel.ket_x1
    ∧ {μ : ℝ | (TwoLevel.X_energy x0 x1 - μ • (1 : Matrix (Fin 2) (Fin 2) ℝ)).det = 0}
        = {x0, x1} := by
  refine ⟨?_, ?_, ?_, ?_⟩
  · rw [TwoLevel.X_energy_apply]
    ext i j
    fin_cases i <;> fin_cases j <;> simp [Matrix.transpose_apply]
  · rw [TwoLevel.X_energy_apply]
    funext i
    fin_cases i <;>
      simp [Matrix.mulVec, Matrix.dotProduct, Fin.sum_univ_two, TwoLevel.ket_x0,
        Pi.smul_apply, smul_eq_mul] <;>
      ring
  · rw [TwoLevel.X_energy_apply]
    funext i
    fin_cases i <;>
      simp [Matrix.mulVec, Matrix.dotProduct, Fin.sum_univ_two, TwoLevel.ket_x1,
        TwoLevel.alpha, Pi.smul_apply, smul_eq_mul] <;>
      ring
  · have hdet : ∀ μ : ℝ, (TwoLevel.X_energy x0 x1 - μ • (1 : Matrix (Fin 2) (Fin 2) ℝ)).det
        = (x0 - μ) * (x1 - μ) := by
      intro μ
      rw [TwoLevel.X_energy_apply, Matrix.det_fin_two]
      simp [Matrix.sub_apply, Matrix.smul_apply, Matrix.one_apply]
      ring
    ext μ
    simp only [Set.mem_setOf_eq, hdet, Set.mem_insert_iff, Set.mem_singleton_iff,
      mul_eq_zero, sub_eq_zero]
    constructor
    · rintro (h | h)
      · exact Or.inl h.symm
      · exact Or.inr h.symm
    · rintro (h | h)
      · exact Or.inl h.symm
      · exact Or.inr h.symm

/-- Claim C8 witness at the script's concrete eigenvalues `x0 = 1`, `x1 = -1`. -/
theorem X_hermitian_eigen_witness :
    ((1:ℝ) ≠ -1)
    ∧ (TwoLevel.X_energy 1 (-1)).transpose = TwoLevel.X_energy 1 (-1)
    ∧ (TwoLevel.X_energy 1 (-1)).mulVec TwoLevel.ket_x0 = (1:ℝ) • TwoLevel.ket_x0
    ∧ (TwoLevel.X_energy 1 (-1)).mulVec TwoLevel.ket_x1 = (-1:ℝ) • TwoLevel.ket_x1
    ∧ {μ : ℝ | (TwoLevel.X_energy 1 (-1) - μ • (1 : Matrix (Fin 2) (Fin 2) ℝ)).det = 0}
        = {1, -1} := by
  have h := X_hermitian_eigen 1 (-1) (by norm_num)
  exact ⟨by norm_num, h.1, h.2.1, h.2.2.1, h.2.2.2⟩

namespace TwoLevel

theorem Xc_eq : Xc = Matrix.of ![![0, 1], ![1, 0]] := by
  rw [Xc, X_energy_apply]
  ext i j
  fin_cases i <;> fin_cases j <;> simp [Matrix.map_apply]

theorem psi_t_apply (t : ℝ) :
    psi_t t = ![(c0 : ℂ) * Complex.exp (-Complex.I * (t : ℂ)), (c0 : ℂ)] := by
  funext i
  rw [psi_t, U]
  fin_cases i
  · simp [Matrix.mulVec_diagonal, psi_0, ket_x0, E0, E1, hbar]
    ring
  · simp [Matrix.mulVec_diagonal, psi_0, ket_x0, E0, E1, hbar]

theorem X_squared_eq_one : X_squared = 1 := by
  rw [X_squared, Xc_eq]
  ext i j
  fin_cases i <;> fin_cases j <;>
    simp [Matrix.mul_apply, Fin.sum_univ_two, Matrix.one_apply]

/-- Faithfulness of the diagonal embedding of `U_t`: the definition above equals
the abstract matrix exponential `expm(-1j * H_energy * t / hbar)` of the
complexified diagonal Hamiltonian. -/
theorem U_eq_matrix_exp (t : ℝ) :
    U t = NormedSpace.exp ℂ
      ((-Complex.I * (t : ℂ) / (hbar : ℂ)) • (H_energy.map (fun r => (r : ℂ)))) := by
  have hH : H_energy.map (fun r => (r : ℂ)) = Matrix.diagonal ![(E0 : ℂ), (E1 : ℂ)] := by
    ext i j
    fin_cases i <;> fin_cases j <;>
      simp [H_energy, Matrix.diagonal, Matrix.map_apply]
  rw [hH, ← Matrix.diagonal_smul, Matrix.exp_diagonal, U]
  ext i j
  fin_cases i <;> fin_cases j
  · rw [Matrix.diagonal_apply_eq, Matrix.diagonal_apply_eq]
    simp only [Pi.coe_exp, Pi.smul_apply, smul_eq_mul, ← Complex.exp_eq_exp_ℂ,
      Fin.mk_zero, Matrix.cons_val_zero]
    congr 1
    ring
  · rw [Matrix.diagonal_apply_ne _ (by decide), Matrix.diagonal_apply_ne _ (by decide)]
  · rw [Matrix.diagonal_apply_ne _ (by decide), Matrix.diagonal_apply_ne _ (by decide)]
  · rw [Matrix.diagonal_apply_eq, Matrix.diagonal_apply_eq]
    simp only [Pi.coe_exp, Pi.smul_apply, smul_eq_mul, ← Complex.exp_eq_exp_ℂ,
      Fin.mk_one, Matrix.cons_val_one, Matrix.head_cons]
    congr 1
    ring

theorem conj_exp_neg_I_mul (t : ℝ) :
    (starRingEnd ℂ) (Complex.exp (-(Complex.I * (t : ℂ)))) = Complex.exp (Complex.I * (t : ℂ)) := by
  rw [← Complex.exp_conj]
  congr 1
  rw [map_neg, map_mul, Complex.conj_I, Complex.conj_ofReal]
  ring

theorem Xexp_eq (t : ℝ) : X_expectation t = Real.cos t := by
  have hmv : Xc.mulVec (psi_t t) = ![(c0 : ℂ), (c0 : ℂ) * Complex.exp (-Complex.I * (t : ℂ))] := by
    rw [Xc_eq, psi_t_apply]
    funext i
    fin_cases i <;> simp [Matrix.mulVec, Matrix.dotProduct, Fin.sum_univ_two]
  rw [X_expectation, hmv, psi_t_apply]
  have hdot : Matrix.dotProduct
      (star ![(c0 : ℂ) * Complex.exp (-Complex.I * (t : ℂ)), (c0 : ℂ)])
      ![(c0 : ℂ), (c0 : ℂ) * Complex.exp (-Complex.I * (t : ℂ))]
      = ((c0 ^ 2 : ℝ) : ℂ)
        * (Complex.exp (Complex.I * (t : ℂ)) + Complex.exp (-Complex.I * (t : ℂ))) := by
    simp [Matrix.dotProduct, Fin.sum_univ_two, Pi.star_apply, map_mul, conj_exp_neg_I_mul,
      Complex.conj_ofReal]
    ring
  rw [hdot, Complex.mul_re, Complex.ofReal_re, Complex.ofReal_im]
  simp [Complex.add_re, Complex.add_im, Complex.exp_re, Complex.exp_im, Complex.mul_re,
    Complex.mul_im, Complex.I_re, Complex.I_im, Complex.ofReal_re, Complex.ofReal_im,
    Complex.neg_re, Complex.neg_im, Real.exp_zero, Real.cos_neg]
  rw [c0_sq]
  ring

theorem X2exp_eq (t : ℝ) : X_squared_expectation t = 1 := by
  rw [X_squared_expectation, X_squared_eq_one, Matrix.one_mulVec, psi_t_apply]
  have hEE : (starRingEnd ℂ) (Complex.exp (-(Complex.I * (t : ℂ))))
      * Complex.exp (-(Complex.I * (t : ℂ))) = 1 := by
    rw [conj_exp_neg_I_mul, ← Complex.exp_add,
      show Complex.I * (t:ℂ) + -(Complex.I * (t:ℂ)) = 0 by ring, Complex.exp_zero]
  have hdot : Matrix.dotProduct
      (star ![(c0 : ℂ) * Complex.exp (-Complex.I * (t : ℂ)), (c0 : ℂ)])
      ![(c0 : ℂ) * Complex.exp (-Complex.I * (t : ℂ)), (c0 : ℂ)]
      = ((2 * c0 ^ 2 : ℝ) : ℂ) := by
    simp [Matrix.dotProduct, Fin.sum_univ_two, Pi.star_apply, map_mul, Complex.conj_ofReal]
    linear_combination ((c0 : ℂ)) ^ 2 * hEE
  rw [hdot, Complex.ofReal_re, c0_sq]
  norm_num

end TwoLevel

/-- Claim C9: the variance `⟨X²⟩ − ⟨X⟩²` computed by the script (the argument
of the square root at line 158, with the script's parameters `E0 = 1`, `E1 = 0`,
`x0 = 1`, `x1 = -1`, `ħ = 1` and initial state `|x0⟩`) is a real number equal
to `sin² t` exactly, for every propagated time `t`; it is therefore nonnegative
and in particular `≥ -1e-9` at every sampled time, so neither the small-negative
clamping nor the `ConsistencyError` failure path of the spec's policy is ever
exercised on this system. -/
theorem variance_nonneg (t : ℝ) :
    TwoLevel.variance t = Real.sin t ^ 2
    ∧ 0 ≤ TwoLevel.variance t
    ∧ (-(1e-9) : ℝ) ≤ TwoLevel.variance t := by
  have hv : TwoLevel.variance t = Real.sin t ^ 2 := by
    rw [TwoLevel.variance, TwoLevel.X2exp_eq, TwoLevel.Xexp_eq, Real.sin_sq]
  refine ⟨hv, ?_, ?_⟩
  · rw [hv]
    positivity
  · rw [hv]
    exact le_trans (by norm_num) (sq_nonneg (Real.sin t))

/-! Round trip of the basis transform: exact orthonormality of the analytic
particle-in-a-box eigenfunctions, and the quadrature-error bound. -/

theorem integral_cos_freq (a B : ℝ) (ha : a ≠ 0) :
    ∫ t in (0:ℝ)..B, Real.cos (a * t) = Real.sin (a * B) / a := by
  have h : ∀ t ∈ Set.uIcc (0:ℝ) B,
      HasDerivAt (fun u => Real.sin (a * u) / a) (Real.cos (a * t)) t := by
    intro t _
    have h1 : HasDerivAt (fun u : ℝ => a * u) a t := by
      simpa using (hasDerivAt_id t).const_mul a
    have h2 := (Real.hasDerivAt_sin (a * t)).comp t h1
    have h3 := h2.div_const a
    have h4 : Real.cos (a * t) * a / a = Real.cos (a * t) := by
      field_simp
    exact h4 ▸ h3
  rw [intervalIntegral.integral_eq_sub_of_hasDerivAt h
    ((Real.continuous_cos.comp (continuous_const.mul continuous_id)).intervalIntegrable 0 B)]
  simp

theorem pw_orthonormal (pib : ParticleInBox) (hL : 0 < pib.L) (m n : ℕ) :
    (∫ t in (0:ℝ)..pib.L, pib.position_wavefunction m t * pib.position_wavefunction n t)
      = if m = n then 1 else 0 := by
  have hL0 : pib.L ≠ 0 := ne_of_gt hL
  set d : ℝ := ((m:ℝ) - n) * Real.pi / pib.L with hd
  set s : ℝ := ((m:ℝ) + n + 2) * Real.pi / pib.L with hs
  have hpt : ∀ t : ℝ, pib.position_wavefunction m t * pib.position_wavefunction n t
      = (1 / pib.L) * Real.cos (d * t) - (1 / pib.L) * Real.cos (s * t) := by
    intro t
    have hsq : Real.sqrt (2 / pib.L) * Real.sqrt (2 / pib.L) = 2 / pib.L :=
      Real.mul_self_sqrt (by positivity)
    have hcc := Real.cos_sub_cos (d * t) (s * t)
    have hS : (d * t + s * t) / 2 = ((m:ℝ) + 1) * Real.pi * t / pib.L := by
      rw [hd, hs]
      field_simp
      ring
    have hD : (d * t - s * t) / 2 = -(((n:ℝ) + 1) * Real.pi * t / pib.L) := by
      rw [hd, hs]
      field_simp
      ring
    rw [hS, hD, Real.sin_neg] at hcc
    rw [ParticleInBox.position_wavefunction, ParticleInBox.position_wavefunction]
    have expand : (Real.sqrt (2 / pib.L) * Real.sin (((m:ℝ) + 1) * Real.pi * t / pib.L))
        * (Real.sqrt (2 / pib.L) * Real.sin (((n:ℝ) + 1) * Real.pi * t / pib.L))
        = (Real.sqrt (2 / pib.L) * Real.sqrt (2 / pib.L))
          * (Real.sin (((m:ℝ) + 1) * Real.pi * t / pib.L)
             * Real.sin (((n:ℝ) + 1) * Real.pi * t / pib.L)) := by
      ring
    rw [expand, hsq]
    linear_combination (-(1 / pib.L)) * hcc
  rw [show (∫ t in (0:ℝ)..pib.L, pib.position_wavefunction m t * pib.position_wavefunction n t)
      = ∫ t in (0:ℝ)..pib.L,
          ((1 / pib.L) * Real.cos (d * t) - (1 / pib.L) * Real.cos (s * t)) from
    intervalIntegral.integral_congr (fun t _ => hpt t)]
  have hcont1 : Continuous fun t : ℝ => (1 / pib.L) * Real.cos (d * t) :=
    continuous_const.mul (Real.continuous_cos.comp (continuous_const.mul continuous_id))
  have hcont2 : Continuous fun t : ℝ => (1 / pib.L) * Real.cos (s * t) :=
    continuous_const.mul (Real.continuous_cos.comp (continuous_const.mul continuous_id))
  rw [intervalIntegral.integral_sub (hcont1.intervalIntegrable 0 pib.L)
    (hcont2.intervalIntegrable 0 pib.L),
    intervalIntegral.integral_const_mul, intervalIntegral.integral_const_mul]
  by_cases hmn : m = n
  · subst hmn
    have hs0 : s ≠ 0 := by
      rw [hs]
      exact div_ne_zero
        (mul_ne_zero (by positivity : (0:ℝ) < (m:ℝ) + m + 2).ne' Real.pi_ne_zero) hL0
    have h1 : (∫ t in (0:ℝ)..pib.L, Real.cos (d * t)) = pib.L := by
      have hd0 : d = 0 := by
        rw [hd]
        simp
      rw [hd0]
      simp
    have h2 : (∫ t in (0:ℝ)..pib.L, Real.cos (s * t)) = 0 := by
      rw [integral_cos_freq _ _ hs0]
      have hsL : s * pib.L = ((2 * m + 2 : ℕ) : ℝ) * Real.pi := by
        rw [hs, div_mul_cancel₀ _ hL0]
        push_cast
        ring
      rw [hsL, Real.sin_nat_mul_pi, zero_div]
    rw [h1, h2, if_pos rfl]
    field_simp
  · have hdne : d ≠ 0 := by
      rw [hd]
      exact div_ne_zero
        (mul_ne_zero (sub_ne_zero.mpr (by exact_mod_cast hmn)) Real.pi_ne_zero) hL0
    have hsne : s ≠ 0 := by
      rw [hs]
      exact div_ne_zero
        (mul_ne_zero (by positivity : (0:ℝ) < (m:ℝ) + n + 2).ne' Real.pi_ne_zero) hL0
    have h1 : (∫ t in (0:ℝ)..pib.L, Real.cos (d * t)) = 0 := by
      rw [integral_cos_freq _ _ hdne]
      have hdL : d * pib.L = (((m:ℤ) - (n:ℤ) : ℤ) : ℝ) * Real.pi := by
        rw [hd, div_mul_cancel₀ _ hL0]
        push_cast
        ring
      rw [hdL, Real.sin_int_mul_pi, zero_div]
    have h2 : (∫ t in (0:ℝ)..pib.L, Real.cos (s * t)) = 0 := by
      rw [integral_cos_freq _ _ hsne]
      have hsL : s * pib.L = ((m + n + 2 : ℕ) : ℝ) * Real.pi := by
        rw [hs, div_mul_cancel₀ _ hL0]
        push_cast
        ring
      rw [hsL, Real.sin_nat_mul_pi, zero_div]
    rw [h1, h2, if_neg hmn]
    ring

namespace ParticleInBox

theorem position_to_energy_getD (pib : ParticleInBox) (psi : List ℂ) (m : ℕ)
    (hm : m < pib.n_max) :
    (pib.position_to_energy psi).getD m 0
      = trapz (List.zipWith (fun (a : ℝ) (b : ℂ) => (a : ℂ) * b)
          (pib.x.map (pib.position_wavefunction m)) psi) pib.x := by
  have hidx : (List.range pib.n_max).getD m 0 = m := by
    rw [List.getD_eq_getElem _ _ (by simpa using hm)]
    simp
  rw [position_to_energy, getD_map_lt _ _ m (by simpa using hm) 0 0, hidx]

theorem trapz_zip_expansion (pib : ParticleInBox) (c : List ℂ) (m : ℕ) :
    trapz (List.zipWith (fun (a : ℝ) (b : ℂ) => (a : ℂ) * b)
        (pib.x.map (pib.position_wavefunction m)) (pib.energy_to_position c)) pib.x
      = ∑ n in Finset.range c.length, c.getD n 0 * ((pib.gram m n : ℝ) : ℂ) := by
  have hY : ∀ i : ℕ, i < pib.x.length →
      (List.zipWith (fun (a : ℝ) (b : ℂ) => (a : ℂ) * b)
        (pib.x.map (pib.position_wavefunction m)) (pib.energy_to_position c)).getD i 0
      = ∑ n in Finset.range c.length,
          c.getD n 0 * ((pib.position_wavefunction m (pib.x.getD i 0)
              * pib.position_wavefunction n (pib.x.getD i 0) : ℝ) : ℂ) := by
    intro i hi
    rw [getD_zipWith_lt _ _ _ i (by simpa using hi)
        (by rw [pib.energy_to_position_length c]; exact hi) 0 0 0,
      getD_map_lt _ _ i hi 0 0, pib.energy_to_position_getD c i hi, Finset.mul_sum]
    apply Finset.sum_congr rfl
    intro n _
    push_cast
    ring
  have hgram_sum : ∀ k : ℕ, pib.gram m k
      = ∑ i in Finset.range (pib.x.length - 1),
        (pib.x.getD (i + 1) 0 - pib.x.getD i 0)
          * (pib.position_wavefunction m (pib.x.getD i 0)
                * pib.position_wavefunction k (pib.x.getD i 0)
              + pib.position_wavefunction m (pib.x.getD (i + 1) 0)
                * pib.position_wavefunction k (pib.x.getD (i + 1) 0)) / 2 := by
    intro k
    rw [gram, trapzR]
    apply Finset.sum_congr rfl
    intro i hi
    rw [Finset.mem_range] at hi
    rw [getD_map_lt _ _ i (by omega) 0 0, getD_map_lt _ _ (i + 1) (by omega) 0 0]
  rw [trapz]
  trans ∑ i in Finset.range (pib.x.length - 1), ∑ n in Finset.range c.length,
      c.getD n 0 * (((pib.x.getD (i + 1) 0 - pib.x.getD i 0)
        * (pib.position_wavefunction m (pib.x.getD i 0)
              * pib.position_wavefunction n (pib.x.getD i 0)
            + pib.position_wavefunction m (pib.x.getD (i + 1) 0)
              * pib.position_wavefunction n (pib.x.getD (i + 1) 0)) / 2 : ℝ) : ℂ)
  · apply Finset.sum_congr rfl
    intro i hi
    rw [Finset.mem_range] at hi
    rw [hY i (by omega), hY (i + 1) (by omega), ← Finset.sum_add_distrib, Finset.mul_sum,
      Finset.sum_div]
    apply Finset.sum_congr rfl
    intro k _
    push_cast
    ring
  · rw [Finset.sum_comm]
    apply Finset.sum_congr rfl
    intro k _
    rw [← Finset.mul_sum, hgram_sum k]
    congr 1
    norm_cast

end ParticleInBox

/-- Claim C1: round trip of the basis transform. For every coefficient vector
`c` of length at most `n_max` (every such vector is by definition exactly
representable in the analytic basis: its wavefunction is `Σ_n c_n ψ_n`),
applying `energy_to_position` and then `position_to_energy` returns a vector
whose entry `m` differs from `c[m]` by at most
`Σ_n |c_n| · quadErr(m, n)`, where `quadErr(m, n)` is exactly the trapezoidal
quadrature error of the grid on the basis-overlap integrand `ψ_m ψ_n` (whose
true integral is `δ_mn` by the orthonormality theorem `pw_orthonormal`). -/
theorem roundtrip_quadrature_bound (pib : ParticleInBox) (hL : 0 < pib.L)
    (c : List ℂ) (_hc : c.length ≤ pib.n_max) (m : ℕ) (hm : m < pib.n_max) :
    Complex.abs ((pib.position_to_energy (pib.energy_to_position c)).getD m 0 - c.getD m 0)
      ≤ ∑ n in Finset.range c.length, Complex.abs (c.getD n 0) * pib.quadErr m n := by
  have hrt : (pib.position_to_energy (pib.energy_to_position c)).getD m 0
      = ∑ n in Finset.range c.length, c.getD n 0 * ((pib.gram m n : ℝ) : ℂ) := by
    rw [pib.position_to_energy_getD _ m hm, pib.trapz_zip_expansion c m]
  have hcm : (∑ n in Finset.range c.length, c.getD n 0 * (if m = n then (1:ℂ) else 0))
      = c.getD m 0 := by
    simp only [mul_ite, mul_one, mul_zero]
    rw [Finset.sum_ite_eq]
    by_cases h : m < c.length
    · simp [h]
    · simp only [Finset.mem_range, h, if_neg, if_false]
      rw [List.getD_eq_default _ _ (by omega)]
  rw [hrt, ← hcm, ← Finset.sum_sub_distrib]
  refine le_trans (Complex.abs.sum_le _ _) ?_
  apply Finset.sum_le_sum
  intro n _
  rw [show c.getD n 0 * ((pib.gram m n : ℝ) : ℂ) - c.getD n 0 * (if m = n then (1:ℂ) else 0)
      = c.getD n 0 * (((pib.gram m n : ℝ) : ℂ) - (if m = n then (1:ℂ) else 0)) from by ring,
    map_mul]
  apply mul_le_mul_of_nonneg_left ?_ (Complex.abs.nonneg _)
  rw [ParticleInBox.quadErr, pw_orthonormal pib hL m n]
  have hcast : ((pib.gram m n : ℝ) : ℂ) - (if m = n then (1:ℂ) else 0)
      = ((pib.gram m n - (if m = n then (1:ℝ) else 0) : ℝ) : ℂ) := by
    split
    · push_cast
      ring
    · push_cast
      ring
  rw [hcast, Complex.abs_ofReal]

/-- Claim C1 witness at the concrete instance `pibRT` (`L = 1`, `n_max = 2`,
five grid points) with `c = [1, 0]` and recovered mode 0. -/
theorem roundtrip_quadrature_bound_witness :
    (0 < pibRT.L ∧ ([1, 0] : List ℂ).length ≤ pibRT.n_max ∧ 0 < pibRT.n_max)
    ∧ Complex.abs ((pibRT.position_to_energy (pibRT.energy_to_position [1, 0])).getD 0 0
          - ([1, 0] : List ℂ).getD 0 0)
      ≤ ∑ n in Finset.range ([1, 0] : List ℂ).length,
          Complex.abs (([1, 0] : List ℂ).getD n 0) * pibRT.quadErr 0 n :=
  ⟨⟨by norm_num [pibRT], by simp [pibRT], by norm_num [pibRT]⟩,
    roundtrip_quadrature_bound pibRT (by norm_num [pibRT]) [1, 0] (by simp [pibRT]) 0
      (by norm_num [pibRT])⟩

end
